import Mathlib

/-!
Verification development for the parallel grid-processing core of the
whitebox geospatial analysis tools repository, covering the two tools in
`src/whitebox_tools/src/tools/image_analysis`:

* `opening.rs` — the two-pass sliding-window extremum filter
  (morphological erosion followed by dilation);
* `k_means_clustering.rs` — the iterative Lloyd-style k-means loop.

Machine floating-point values are modelled as exact rationals (`ℚ`): every
comparison, sum of squares, and min/max in the claims under study is exact
arithmetic on finite values, with the `f64` infinities used as fold seeds
modelled by `Option ℚ` (`none` standing for "no value yet", i.e. the seed
`INFINITY` / `NEG_INFINITY`).  A raster cell is `Option ℚ`: `none` models
the nodata sentinel (the code only ever tests `value != nodata`), and a
`Raster.get_value` out of bounds returns the nodata sentinel, so the
embedded grid is total on `ℤ × ℤ` with `none` outside the extent.
-/

/-! ## The sliding extremum filter (`opening.rs`) -/

/-- A raster band: `none` models the nodata sentinel (also returned by
`get_value` for out-of-bounds indices). -/
abbrev Grid := ℤ → ℤ → Option ℚ

/-- One accumulation step of the extremum scan for the erosion pass,
embedding `if z_n != nodata { if z_n < min_val { min_val = z_n } }`
(opening.rs lines 251-253); `none` as accumulator models the
`f64::INFINITY` seed. -/
def optMin (acc : Option ℚ) (v : Option ℚ) : Option ℚ :=
  match v with
  | none => acc
  | some z =>
    match acc with
    | none => some z
    | some m => if z < m then some z else some m

/-- One accumulation step of the extremum scan for the dilation pass,
embedding `if z_n != nodata { if z_n > max_val { max_val = z_n } }`
(opening.rs lines 329-331); `none` models the `f64::NEG_INFINITY` seed. -/
def optMax (acc : Option ℚ) (v : Option ℚ) : Option ℚ :=
  match v with
  | none => acc
  | some z =>
    match acc with
    | none => some z
    | some m => if z > m then some z else some m

/-- The vertical slice of the window at column `c` for the row `r`:
the values `g (r - my + j) c` for `row2 in start_row..end_row+1` with
`start_row = row - midpoint_y`, `end_row = row + midpoint_y`
(opening.rs lines 242-243, 249, 262, 327, 340). -/
def colVals (g : Grid) (my : ℕ) (r c : ℤ) : List (Option ℚ) :=
  (List.range (2 * my + 1)).map fun (j : ℕ) => g (r - my + j) c

/-- The minimum of one vertical column slice, skipping nodata
(opening.rs lines 249-254 and 261-267). -/
def sliceMin (g : Grid) (my : ℕ) (r c : ℤ) : Option ℚ :=
  (colVals g my r c).foldl optMin none

/-- The maximum of one vertical column slice, skipping nodata
(opening.rs lines 327-332 and 339-345). -/
def sliceMax (g : Grid) (my : ℕ) (r c : ℤ) : Option ℚ :=
  (colVals g my r c).foldl optMax none

/-- The erosion pass's window queue `filter_min_vals` as it stands when
column `c` of row `r` is evaluated: at `c = 0` it is built from scratch
from the `filter_size_x = 2*mx+1` column slices `[-mx, mx]`
(opening.rs lines 256-269); for `c+1` the oldest slice is popped from the
front and the newly entered slice at column `c+1+mx` is pushed at the back
(opening.rs lines 246-255). -/
def erodeQueue (g : Grid) (mx my : ℕ) (r : ℤ) : ℕ → List (Option ℚ)
  | 0 => (List.range (2 * mx + 1)).map fun (j : ℕ) => sliceMin g my r (0 - mx + j)
  | c + 1 => ((erodeQueue g mx my r c).tail).concat
      (sliceMin g my r ((c : ℤ) + 1 + mx))

/-- The dilation pass's window queue `filter_max_vals`
(opening.rs lines 319, 324-333, 334-347). -/
def dilateQueue (g : Grid) (mx my : ℕ) (r : ℤ) : ℕ → List (Option ℚ)
  | 0 => (List.range (2 * mx + 1)).map fun (j : ℕ) => sliceMax g my r (0 - mx + j)
  | c + 1 => ((dilateQueue g mx my r c).tail).concat
      (sliceMax g my r ((c : ℤ) + 1 + mx))

/-- The erosion output at one cell: if the center cell is nodata the
output stays nodata (the `data` vector is initialized to `nodata`,
opening.rs line 244); otherwise the minimum over the queued slice minima,
which is nodata exactly when every entry of the window is nodata
(`min_val < f64::INFINITY` guard, opening.rs lines 271-280). -/
def erodeCell (g : Grid) (mx my : ℕ) (r : ℤ) (c : ℕ) : Option ℚ :=
  match g r c with
  | none => none
  | some _ => (erodeQueue g mx my r c).foldl optMin none

/-- The dilation output at one cell (opening.rs lines 349-358). -/
def dilateCell (g : Grid) (mx my : ℕ) (r : ℤ) (c : ℕ) : Option ℚ :=
  match g r c with
  | none => none
  | some _ => (dilateQueue g mx my r c).foldl optMax none

/-- All values of the `(2*mx+1) × (2*my+1)` window centred at `(r, c)`,
grouped by column slice. -/
def windowVals (g : Grid) (mx my : ℕ) (r : ℤ) (c : ℕ) : List (Option ℚ) :=
  (((List.range (2 * mx + 1)).map fun (j : ℕ) => colVals g my r ((c : ℤ) - mx + j))).flatten

/-! ## The work dispatcher's block partition (`opening.rs` spawn loops) -/

/-- The worker-spawning loop of the extremum filter, embedding
`while ending_row < rows { starting_row = id * row_block_size;
ending_row = starting_row + row_block_size; if ending_row > rows
{ ending_row = rows; } id += 1; spawn [starting_row, ending_row) }`
(opening.rs lines 227-235 and 305-312).  The loop can fail to terminate
when `row_block_size = 0`; the explicit `fuel` argument bounds the number
of modelled loop turns. -/
def blockLoop (R bs : ℕ) : ℕ → ℕ → ℕ → List (ℕ × ℕ)
  | 0, _, _ => []
  | fuel + 1, id, endRow =>
    if endRow < R then
      (id * bs, min (id * bs + bs) R) ::
        blockLoop R bs fuel (id + 1) (min (id * bs + bs) R)
    else []

/-- The list of `(starting_row, ending_row)` ranges owned by the spawned
workers, in spawn order, with `row_block_size = rows / num_procs`
(integer floor division, opening.rs line 224).  `R + 1` turns of fuel are
enough for every terminating execution of the source loop. -/
def blockRanges (R P : ℕ) : List (ℕ × ℕ) :=
  blockLoop R (R / P) (R + 1) 0 0

/-- Modelled from the spec (for comparison with `blockRanges`): worker `t`
of `P` owns the contiguous range from `t * ceil(R/P)` to
`(t+1) * ceil(R/P)` clipped to `R`. -/
def specBlockRanges (R P : ℕ) : List (ℕ × ℕ) :=
  (List.range P).map fun t =>
    (t * ((R + P - 1) / P), min ((t + 1) * ((R + P - 1) / P)) R)

/-- The rows of the half-open interval `[s, e)` in increasing order. -/
def rowsIn (s e : ℕ) : List ℕ :=
  (List.range (e - s)).map fun j => s + j

/-- The concatenation, in spawn order, of the rows owned by each worker. -/
def rowsOf (ranges : List (ℕ × ℕ)) : List ℕ :=
  (ranges.map fun se => rowsIn se.1 se.2).flatten

/-! ## Tagged row results and single-consumer assembly (`opening.rs`) -/

/-- The tagged payload a worker sends for row `r` of the erosion pass:
`(row, data)` with `data[col] = erodeCell` for each of the `C` columns
(opening.rs lines 244-282). -/
def erodeRow (g : Grid) (mx my C : ℕ) (r : ℕ) : List (Option ℚ) :=
  (List.range C).map fun c => erodeCell g mx my (r : ℤ) c

/-- The tagged payload a worker sends for row `r` of the dilation pass
(opening.rs lines 322-360). -/
def dilateRow (g : Grid) (mx my C : ℕ) (r : ℕ) : List (Option ℚ) :=
  (List.range C).map fun c => dilateCell g mx my (r : ℤ) c

/-- Every message sent on the erosion pass's channel, in per-worker spawn
and row order; the channel may deliver them to the consumer in any
interleaving, modelled as an arbitrary permutation of this list. -/
def sentErodeMsgs (g : Grid) (mx my R C P : ℕ) : List (ℕ × List (Option ℚ)) :=
  ((blockRanges R P).map fun se =>
    (rowsIn se.1 se.2).map fun r => (r, erodeRow g mx my C r)).flatten

/-- Every message sent on the dilation pass's channel. -/
def sentDilateMsgs (g : Grid) (mx my R C P : ℕ) : List (ℕ × List (Option ℚ)) :=
  ((blockRanges R P).map fun se =>
    (rowsIn se.1 se.2).map fun r => (r, dilateRow g mx my C r)).flatten

/-- The single aggregating consumer: each received tagged payload is
written to its destination row (`set_row_data(data.0, data.1)`,
opening.rs lines 288-291 and 366-368), starting from the initial row
contents of the destination. -/
def assemble (msgs : List (ℕ × List (Option ℚ)))
    (init : ℕ → List (Option ℚ)) : ℕ → List (Option ℚ) :=
  msgs.foldl (fun acc m => Function.update acc m.1 m.2) init

/-- The initial contents of every destination row: the `Array2D` holding
the erosion result is created filled with nodata (opening.rs line 287). -/
def initRows (C : ℕ) : ℕ → List (Option ℚ) :=
  fun _ => List.replicate C none

/-- Read a row-indexed store back as a `Grid`: in-extent cells read the
stored row (an out-of-extent `Array2D.get_value` / `Raster.get_value`
returns the nodata sentinel). -/
def gridOfRows (R C : ℕ) (rowsF : ℕ → List (Option ℚ)) : Grid :=
  fun r c =>
    if 0 ≤ r ∧ r < (R : ℤ) ∧ 0 ≤ c ∧ c < (C : ℤ) then
      (rowsF r.toNat).getD c.toNat none
    else none

/-! ## The k-means clustering engine (`k_means_clustering.rs`) -/

/-- A cell is valid when no band reports the nodata sentinel there,
embedding `for i in 0..num_files { value[i] = get(row, col);
if value[i] == nodata[i] { is_valid_data = false; break } }`
(k_means_clustering.rs lines 402-409). -/
def isValidCell (nb : ℕ) (band : ℕ → ℕ → ℕ → ℚ) (nodata : ℕ → ℚ)
    (r c : ℕ) : Bool :=
  (List.range nb).all fun i => decide (band i r c ≠ nodata i)

/-- The multi-band value stack of one cell. -/
def cellValue (band : ℕ → ℕ → ℕ → ℚ) (r c : ℕ) : ℕ → ℚ :=
  fun i => band i r c

/-- Squared Euclidean distance over the `nb` bands, embedding
`dist += (value[i] - centres[a][i]) * (value[i] - centres[a][i])`
(k_means_clustering.rs lines 415-418). -/
def distSq (nb : ℕ) (v c : ℕ → ℚ) : ℚ :=
  ∑ i in Finset.range nb, (v i - c i) * (v i - c i)

/-- One turn of the nearest-centroid scan, embedding
`if dist < min_dist { min_dist = dist; which_class = a }`
(k_means_clustering.rs lines 419-422); the accumulator holds
`(which_class, min_dist)` with `none` modelling the `f64::INFINITY`
seed of `min_dist`. -/
def assignStep (d : ℕ → ℚ) (acc : ℕ × Option ℚ) (a : ℕ) : ℕ × Option ℚ :=
  match acc.2 with
  | none => (a, some (d a))
  | some m => if d a < m then (a, some (d a)) else acc

/-- The class index assigned by the scan over `a in 0..num_classes`
(k_means_clustering.rs lines 413-423), started from
`min_dist = INFINITY` (and `which_class = 0`). -/
def assignClass (k : ℕ) (d : ℕ → ℚ) : ℕ :=
  ((List.range k).foldl (assignStep d) (0, none)).1

/-- The class assigned to a valid cell for the given centroids. -/
def cellClass (nb k : ℕ) (band : ℕ → ℕ → ℕ → ℚ) (centres : ℕ → ℕ → ℚ)
    (r c : ℕ) : ℕ :=
  assignClass k fun a => distSq nb (cellValue band r c) (centres a)

/-- All cell coordinates of the grid. -/
def gridCells (R C : ℕ) : Finset (ℕ × ℕ) :=
  Finset.range R ×ˢ Finset.range C

/-- The valid cells of the grid (no band reports nodata). -/
def validCells (R C nb : ℕ) (band : ℕ → ℕ → ℕ → ℚ) (nodata : ℕ → ℚ) :
    Finset (ℕ × ℕ) :=
  (gridCells R C).filter fun p => isValidCell nb band nodata p.1 p.2 = true

/-- The number of valid cells: what the counter `n` holds once
`n_counted` is set (k_means_clustering.rs lines 442, 521). -/
def validCount (R C nb : ℕ) (band : ℕ → ℕ → ℕ → ℚ) (nodata : ℕ → ℚ) : ℕ :=
  (validCells R C nb band nodata).card

/-- The member count `class_n[a]` accumulated over one assignment pass
(k_means_clustering.rs lines 441-452): every valid cell increments the
count of its assigned class exactly once. -/
def classCount (R C nb k : ℕ) (band : ℕ → ℕ → ℕ → ℚ) (nodata : ℕ → ℚ)
    (centres : ℕ → ℕ → ℚ) (a : ℕ) : ℕ :=
  ((validCells R C nb band nodata).filter fun p =>
    cellClass nb k band centres p.1 p.2 = a).card

/-- The per-iteration bookkeeping of the valid-cell counter: the pair
`(n, n_counted)`.  During an iteration every valid cell adds one to `n`
unless `n_counted` is already set (k_means_clustering.rs line 442), and
`n_counted` is set at the end of the iteration (line 521). -/
def nStep (vc : ℕ) (s : ℕ × Bool) : ℕ × Bool :=
  (if s.2 then s.1 else s.1 + vc, true)

/-- The diagonal centroid initialization (k_means_clustering.rs lines
352-359): `range = maximum[i] - minimum[i]; spacing = range / k;
class_centres[a][i] = minimum[i] + spacing * a`. -/
def diagInit (k : ℕ) (minimum maximum : ℕ → ℚ) (a i : ℕ) : ℚ :=
  let range := maximum i - minimum i
  let spacing := range / (k : ℚ)
  minimum i + spacing * (a : ℚ)

/-- The donor-search loop for a degenerate class
(k_means_clustering.rs lines 532-547): draw indices from the random
stream while no donor has been found and `attempt < chances`, accepting
the first drawn class whose member count exceeds the threshold
`min_class_size * 2` (the escalation vector `class_min_size` is recreated
for each degenerate class and is only ever incremented after a successful
draw, so every draw is compared against the initial threshold).
`remaining` counts the loop turns left, i.e. `chances - attempt`. -/
def donorLoop (classN : ℕ → ℕ) (thresh : ℕ) (idxRng : ℕ → ℕ) :
    ℕ → ℕ → Option ℕ
  | _, 0 => none
  | attempt, rem + 1 =>
    let v := idxRng attempt
    if thresh < classN v then some v
    else donorLoop classN thresh idxRng (attempt + 1) rem

/-- The donor search as run by the source: `attempt` starts at 1 and the
loop runs while `attempt < chances` with `chances = num_classes * 10`
(k_means_clustering.rs lines 536-547), i.e. at most `10*k - 1` draws. -/
def donorSearch (k minCS : ℕ) (classN : ℕ → ℕ) (idxRng : ℕ → ℕ) : Option ℕ :=
  donorLoop classN (minCS * 2) idxRng 1 (10 * k - 1)

/-- The centroid update for one class (k_means_clustering.rs lines
524-554).  A class with at least `min_class_size` members is recentred at
the arithmetic mean; otherwise a donor is searched for and each band is
re-sampled within the donor's observed min-max range, where the donor
index defaults to `large_class = 0` when the search fails (line 535).
`valRng i lo hi` models the draw `Range::new(lo, hi).ind_sample(rng)`
for band `i`. -/
def updateCentre (k minCS : ℕ) (classN : ℕ → ℕ)
    (sums mins maxs : ℕ → ℕ → ℚ) (idxRng : ℕ → ℕ)
    (valRng : ℕ → ℚ → ℚ → ℚ) (a : ℕ) : ℕ → ℚ :=
  if minCS ≤ classN a then
    fun i => sums a i / (classN a : ℚ)
  else
    let largeClass := (donorSearch k minCS classN idxRng).getD 0
    fun i => valRng i (mins largeClass i) (maxs largeClass i)

/-- The iteration loop of the clustering tool (k_means_clustering.rs
lines 372 and 556-561): `for loop_num in 0..max_iterations` runs the
iteration step (which yields the new state and `percent_changed`) and
breaks as soon as `percent_changed < percent_changed_threshold`.
Returns the final state and the number of iterations executed. -/
def kmeansLoop {σ : Type} (step : σ → σ × ℚ) (threshold : ℚ) :
    ℕ → σ → σ × ℕ
  | 0, s => (s, 0)
  | m + 1, s =>
    let r := step s
    if r.2 < threshold then (r.1, 1)
    else
      let rest := kmeansLoop step threshold m r.1
      (rest.1, rest.2 + 1)

/-- The state trajectory of the loop body ignoring the early break:
`kmeansTraj step s t` is the state before iteration `t`. -/
def kmeansTraj {σ : Type} (step : σ → σ × ℚ) (s : σ) : ℕ → σ
  | 0 => s
  | t + 1 => (step (kmeansTraj step s t)).1

/-- The `percent_changed` value produced by iteration `t` of the loop
body (k_means_clustering.rs line 558). -/
def percentAt {σ : Type} (step : σ → σ × ℚ) (s : σ) (t : ℕ) : ℚ :=
  (step (kmeansTraj step s t)).2

/-- The formula `percent_changed = 100 * cells_changed / n`
(k_means_clustering.rs line 558). -/
def percentChanged (cellsChanged n : ℕ) : ℚ :=
  100 * (cellsChanged : ℚ) / (n : ℚ)

/-! ## Configuration validation of the clustering tool
(k_means_clustering.rs lines 264-333) -/

/-- The configuration surface of the clustering tool once argument
strings are parsed: the number of input files, the iteration budget, the
change threshold, the class count, the minimum class size, and the
`(rows, columns)` extent each input file would report once read.  (All
file names are taken non-empty, as in any run that reaches the checks.) -/
structure KConfig where
  numFiles : ℕ
  maxIterations : ℕ
  threshold : ℚ
  numClasses : ℕ
  minClassSize : ℕ
  dims : ℕ → ℕ × ℕ

/-- Observable events of the setup phase, in program order: a raster file
being read (`Raster::new`, line 304), each fatal configuration error, and
successful completion of the setup. -/
inductive KEvent where
  | readFile : ℕ → KEvent
  | errNumFiles : KEvent
  | errMaxIter : KEvent
  | errThreshold : KEvent
  | errClasses : KEvent
  | errMinClass : KEvent
  | errDims : KEvent
  | setupDone : KEvent
  deriving DecidableEq, Repr

/-- The file-reading loop (k_means_clustering.rs lines 296-328): each
turn reads file `i`; on the first file the extent is recorded and
`num_classes` (line 312) then `min_class_size` (line 316) are checked;
later files are checked for a matching extent (line 321).  `fuel` is the
number of files still to read. -/
def setupLoop (cfg : KConfig) : ℕ → ℕ → Option (ℕ × ℕ) → List KEvent
  | _, 0, _ => [KEvent.setupDone]
  | i, fuel + 1, none =>
    KEvent.readFile i ::
      (let rc := cfg.dims i
       if cfg.numClasses < 2 ∨ rc.1 * rc.2 < cfg.numClasses then
         [KEvent.errClasses]
       else if rc.1 * rc.2 / cfg.numClasses < cfg.minClassSize then
         [KEvent.errMinClass]
       else setupLoop cfg (i + 1) fuel (some rc))
  | i, fuel + 1, some rc =>
    KEvent.readFile i ::
      (if cfg.dims i ≠ rc then [KEvent.errDims]
       else setupLoop cfg (i + 1) fuel (some rc))

/-- The ordered event trace of the setup phase: the input-count check
(line 271), the `max_iterations` check (line 276) and the threshold check
(line 281) run before any file is read; the remaining checks run inside
the reading loop. -/
def kmeansSetupTrace (cfg : KConfig) : List KEvent :=
  if cfg.numFiles < 2 then [KEvent.errNumFiles]
  else if cfg.maxIterations < 2 ∨ 250 < cfg.maxIterations then
    [KEvent.errMaxIter]
  else if cfg.threshold < 0 ∨ 25 < cfg.threshold then [KEvent.errThreshold]
  else setupLoop cfg 0 cfg.numFiles none

/-- Whether an event is a raster read. -/
def KEvent.isRead : KEvent → Bool
  | KEvent.readFile _ => true
  | _ => false

/-- Whether an event is a fatal configuration error. -/
def KEvent.isErr : KEvent → Bool
  | KEvent.readFile _ => false
  | KEvent.setupDone => false
  | _ => true

/-- Whether the trace reports an error before any read is attempted: the
first event that is either a read or an error must be an error. -/
def errBeforeAnyRead (tr : List KEvent) : Bool :=
  match tr.find? (fun e => e.isRead || e.isErr) with
  | some e => e.isErr
  | none => false

/-! ## Concrete example inputs used by witnesses and counterexamples -/

/-- A tiny example grid: a single valid cell of value 5 at the origin,
nodata everywhere else. -/
def exGrid : Grid := fun r c => if r = 0 ∧ c = 0 then some 5 else none

/-- An example iteration body for the clustering loop: the state is the
iteration index and `percent_changed` decreases by one each iteration. -/
def exStep : ℕ → ℕ × ℚ := fun s => (s + 1, 5 - (s : ℚ))

/-- Example member counts: class 0 has 15 members, every other class 3. -/
def exClassN : ℕ → ℕ := fun a => if a = 0 then 15 else 3

/-- Example per-class per-band value sums. -/
def exSums : ℕ → ℕ → ℚ := fun _ _ => 0

/-- Example per-class per-band minima. -/
def exMins : ℕ → ℕ → ℚ := fun _ _ => 0

/-- Example per-class per-band maxima. -/
def exMaxs : ℕ → ℕ → ℚ := fun _ _ => 10

/-- An example donor-index random stream (always draws class 0). -/
def exIdxRng : ℕ → ℕ := fun _ => 0

/-- An example in-range random draw: `Range::new(lo, hi)` samples the
half-open interval `[lo, hi)`, so always drawing `lo` is admissible. -/
def exValRng : ℕ → ℚ → ℚ → ℚ := fun _ lo _ => lo

/-- Example centroids as they stand before an update step. -/
def exOldCentres : ℕ → ℕ → ℚ := fun _ _ => 100

/-- An example single-band 2 by 2 raster with values 0, 1, 2, 3. -/
def exBand : ℕ → ℕ → ℕ → ℚ := fun _ r c => ((2 * r + c : ℕ) : ℚ)

/-- An example nodata sentinel never attained by `exBand`. -/
def exNodata : ℕ → ℚ := fun _ => -1

/-- Example centroids 0 and 3 in one band. -/
def exCentres : ℕ → ℕ → ℚ := fun a _ => 3 * (a : ℚ)

/-- An example clustering configuration with `num_classes = 1`, two
well-formed 3 by 3 input files, and all other options in range. -/
def exCfg : KConfig :=
  { numFiles := 2, maxIterations := 10, threshold := 2,
    numClasses := 1, minClassSize := 10, dims := fun _ => (3, 3) }

/-! ## Lemmas: the block partition -/

/-- Concatenating two adjacent half-open row intervals. -/
theorem rowsIn_append (s m e : ℕ) (h1 : s ≤ m) (h2 : m ≤ e) :
    rowsIn s m ++ rowsIn m e = rowsIn s e := by
  unfold rowsIn
  have he : e - s = (m - s) + (e - m) := by omega
  rw [he, List.range_add, List.map_append, List.map_map]
  congr 1
  have hf : ((fun j => s + j) ∘ (fun j => (m - s) + j)) = fun j => m + j := by
    funext j
    simp only [Function.comp_apply]
    omega
  rw [hf]

/-- Unfolding `rowsOf` over a cons. -/
theorem rowsOf_cons (x : ℕ × ℕ) (l : List (ℕ × ℕ)) :
    rowsOf (x :: l) = rowsIn x.1 x.2 ++ rowsOf l := by
  simp [rowsOf]

/-- The spawn loop covers exactly the rows from its entry `ending_row`
value up to `R`, provided the block size is positive and enough fuel
remains. -/
theorem blockLoop_rowsOf (R bs : ℕ) (hbs : 1 ≤ bs) :
    ∀ fuel id, R ≤ id * bs + fuel →
      rowsOf (blockLoop R bs fuel id (min (id * bs) R)) =
        rowsIn (min (id * bs) R) R := by
  intro fuel
  induction fuel with
  | zero =>
    intro id hle
    have hmin : min (id * bs) R = R := by omega
    simp [blockLoop, rowsOf, rowsIn, hmin]
  | succ fuel ih =>
    intro id hle
    by_cases hlt : id * bs < R
    · have hmin : min (id * bs) R = id * bs := by omega
      rw [hmin]
      have hcond : id * bs < R := hlt
      have hstep : id * bs + bs = (id + 1) * bs := by ring
      have ihx := ih (id + 1) (by nlinarith)
      have hmono : id * bs ≤ (id + 1) * bs := by nlinarith
      rw [blockLoop, if_pos hcond, rowsOf_cons]
      dsimp only
      rw [hstep, ihx]
      exact rowsIn_append _ _ _ (Nat.le_min.2 ⟨hmono, le_of_lt hlt⟩)
        (Nat.min_le_right _ _)
    · have hmin : min (id * bs) R = R := by omega
      rw [hmin, blockLoop, if_neg (lt_irrefl R)]
      simp [rowsOf, rowsIn]

/-- With `1 ≤ P ≤ R`, the spawned workers own, in spawn order, exactly
the rows `0, 1, ..., R-1`, each exactly once. -/
theorem blockRanges_rows (R P : ℕ) (hP : 1 ≤ P) (hPR : P ≤ R) :
    rowsOf (blockRanges R P) = List.range R := by
  have hbs : 1 ≤ R / P := (Nat.one_le_div_iff (by omega)).2 hPR
  have h0 : (0 : ℕ) = min (0 * (R / P)) R := by simp
  have := blockLoop_rowsOf R (R / P) hbs (R + 1) 0 (by omega)
  simp only [Nat.zero_mul, Nat.min_eq_left (Nat.zero_le R)] at this
  unfold blockRanges
  rw [show (0 : ℕ) = min (0 * (R / P)) R by simp] at this ⊢
  simpa [rowsIn] using this

/-- Every element of the spawn loop's output is determined by its
position: the worker spawned `t` turns after entry with id `id` owns
`[(id+t)*bs, min ((id+t)*bs + bs) R)`. -/
theorem blockLoop_getElem (R bs : ℕ) :
    ∀ fuel id endRow t se,
      (blockLoop R bs fuel id endRow)[t]? = some se →
      se = ((id + t) * bs, min ((id + t) * bs + bs) R) := by
  intro fuel
  induction fuel with
  | zero =>
    intro id endRow t se h
    simp [blockLoop] at h
  | succ fuel ih =>
    intro id endRow t se h
    rw [blockLoop] at h
    by_cases hcond : endRow < R
    · rw [if_pos hcond] at h
      cases t with
      | zero =>
        simp at h
        simp [← h]
      | succ t =>
        simp only [List.getElem?_cons_succ] at h
        have hx := ih (id + 1) (min (id * bs + bs) R) t se h
        have harith : id + 1 + t = id + (t + 1) := by omega
        rw [hx, harith]
    · rw [if_neg hcond] at h
      simp at h

/-- The `t`-th spawned worker of the source's block partition owns
`[t * (R/P), min (t * (R/P) + R/P) R)` (floor division). -/
theorem blockRanges_owner (R P t : ℕ) (se : ℕ × ℕ)
    (h : (blockRanges R P)[t]? = some se) :
    se = (t * (R / P), min (t * (R / P) + R / P) R) := by
  have := blockLoop_getElem R (R / P) (R + 1) 0 0 t se h
  simpa using this

/-- C2 counterexample: for `R = 10` rows and `P = 4` workers the claim
says worker 3 owns `[3 * ceil(10/4), 4 * ceil(10/4)) = [9, 10)`, but the
source's spawn loop (block size `10 / 4 = 2`, floor) gives worker 3 the
range `[6, 8)`, and spawns five workers rather than four. -/
theorem c2_counterexample :
    (blockRanges 10 4)[3]? = some (6, 8) ∧
      (specBlockRanges 10 4)[3]? = some (9, 10) ∧
      (blockRanges 10 4).length = 5 ∧
      ((6, 8) : ℕ × ℕ) ≠ (9, 10) := by
  refine ⟨by decide, by decide, by decide, by decide⟩

/-- C2 (amended): the extremum filter's block partition uses the floor
block size `R / P`, spawning workers with contiguous ranges
`[t * (R/P), min (t * (R/P) + R/P) R)` until `R` is reached (possibly
more than `P` workers); provided `1 ≤ P ≤ R`, the spawned workers own,
in spawn order, exactly the rows `0..R-1` — every row covered exactly
once, no two workers sharing a row.  (For `R < P` the block size is `0`
and the source's spawn loop does not terminate, so no partition is
produced.) -/
theorem c2_block_partition (R P : ℕ) (hP : 1 ≤ P) (hPR : P ≤ R) :
    rowsOf (blockRanges R P) = List.range R ∧
      ∀ t se, (blockRanges R P)[t]? = some se →
        se = (t * (R / P), min (t * (R / P) + R / P) R) :=
  ⟨blockRanges_rows R P hP hPR, fun t se h => blockRanges_owner R P t se h⟩

/-- C2 witness: the amended statement at `R = 10`, `P = 4`. -/
theorem c2_block_partition_witness :
    rowsOf (blockRanges 10 4) = List.range 10 ∧
      ∀ t se, (blockRanges 10 4)[t]? = some se →
        se = (t * (10 / 4), min (t * (10 / 4) + 10 / 4) 10) :=
  c2_block_partition 10 4 (by norm_num) (by norm_num)

/-! ## Lemmas: extremum folds -/

/-- The seed `INFINITY` is neutral for the min scan. -/
theorem optMin_none_left (v : Option ℚ) : optMin none v = v := by
  cases v <;> rfl

/-- The min scan step computes an option-valued minimum. -/
theorem optMin_some_some (m z : ℚ) : optMin (some m) (some z) = some (min z m) := by
  simp only [optMin]
  rcases lt_or_ge z m with h | h
  · rw [if_pos h, min_eq_left h.le]
  · rw [if_neg (not_lt.2 h), min_eq_right h]

/-- A nodata value is neutral on the right of the min scan step. -/
theorem optMin_none_right (a : Option ℚ) : optMin a none = a := rfl

/-- The min scan step is associative. -/
theorem optMin_assoc (a b c : Option ℚ) :
    optMin (optMin a b) c = optMin a (optMin b c) := by
  cases a with
  | none => rw [optMin_none_left, optMin_none_left]
  | some x =>
    cases b with
    | none => rw [optMin_none_right, optMin_none_left]
    | some y =>
      cases c with
      | none => rw [optMin_none_right, optMin_none_right]
      | some z =>
        rw [optMin_some_some, optMin_some_some, optMin_some_some,
          optMin_some_some, min_assoc]

/-- The seed `NEG_INFINITY` is neutral for the max scan. -/
theorem optMax_none_left (v : Option ℚ) : optMax none v = v := by
  cases v <;> rfl

/-- The max scan step computes an option-valued maximum. -/
theorem optMax_some_some (m z : ℚ) : optMax (some m) (some z) = some (max z m) := by
  simp only [optMax]
  rcases lt_or_ge m z with h | h
  · rw [if_pos h, max_eq_left h.le]
  · rw [if_neg (not_lt.2 h), max_eq_right h]

/-- A nodata value is neutral on the right of the max scan step. -/
theorem optMax_none_right (a : Option ℚ) : optMax a none = a := rfl

/-- The max scan step is associative. -/
theorem optMax_assoc (a b c : Option ℚ) :
    optMax (optMax a b) c = optMax a (optMax b c) := by
  cases a with
  | none => rw [optMax_none_left, optMax_none_left]
  | some x =>
    cases b with
    | none => rw [optMax_none_right, optMax_none_left]
    | some y =>
      cases c with
      | none => rw [optMax_none_right, optMax_none_right]
      | some z =>
        rw [optMax_some_some, optMax_some_some, optMax_some_some,
          optMax_some_some, max_assoc]

/-- A min fold from any seed factors through the seedless fold. -/
theorem foldl_optMin_eq (l : List (Option ℚ)) :
    ∀ a, l.foldl optMin a = optMin a (l.foldl optMin none) := by
  induction l with
  | nil => intro a; cases a <;> rfl
  | cons x xs ih =>
    intro a
    rw [List.foldl_cons, List.foldl_cons, ih (optMin a x), optMin_none_left,
      ih x, optMin_assoc]

/-- A max fold from any seed factors through the seedless fold. -/
theorem foldl_optMax_eq (l : List (Option ℚ)) :
    ∀ a, l.foldl optMax a = optMax a (l.foldl optMax none) := by
  induction l with
  | nil => intro a; cases a <;> rfl
  | cons x xs ih =>
    intro a
    rw [List.foldl_cons, List.foldl_cons, ih (optMax a x), optMax_none_left,
      ih x, optMax_assoc]

/-- Folding min over a concatenation of groups equals folding the
per-group minima. -/
theorem foldl_optMin_flatten (L : List (List (Option ℚ))) :
    L.flatten.foldl optMin none =
      (L.map fun l => l.foldl optMin none).foldl optMin none := by
  induction L with
  | nil => rfl
  | cons l Ls ih =>
    rw [List.flatten_cons, List.map_cons, List.foldl_append,
      List.foldl_cons, optMin_none_left, foldl_optMin_eq Ls.flatten, ih]
    exact (foldl_optMin_eq _ _).symm

/-- Folding max over a concatenation of groups equals folding the
per-group maxima. -/
theorem foldl_optMax_flatten (L : List (List (Option ℚ))) :
    L.flatten.foldl optMax none =
      (L.map fun l => l.foldl optMax none).foldl optMax none := by
  induction L with
  | nil => rfl
  | cons l Ls ih =>
    rw [List.flatten_cons, List.map_cons, List.foldl_append,
      List.foldl_cons, optMax_none_left, foldl_optMax_eq Ls.flatten, ih]
    exact (foldl_optMax_eq _ _).symm

/-- The result of a min fold never exceeds a value in its seed. -/
theorem foldl_optMin_acc_le (l : List (Option ℚ)) :
    ∀ n m : ℚ, l.foldl optMin (some n) = some m → m ≤ n := by
  induction l with
  | nil =>
    intro n m h
    simp only [List.foldl_nil, Option.some.injEq] at h
    exact h.ge
  | cons x xs ih =>
    intro n m h
    rw [List.foldl_cons] at h
    cases x with
    | none => exact ih n m h
    | some z =>
      rw [optMin_some_some] at h
      exact le_trans (ih _ m h) (min_le_right z n)

/-- The result of a min fold is a lower bound for every non-nodata
member of the list. -/
theorem foldl_optMin_le_mem (l : List (Option ℚ)) :
    ∀ (a : Option ℚ) (m y : ℚ), l.foldl optMin a = some m →
      some y ∈ l → m ≤ y := by
  induction l with
  | nil =>
    intro a m y _ hy
    simp at hy
  | cons x xs ih =>
    intro a m y h hy
    rw [List.foldl_cons] at h
    rcases List.mem_cons.1 hy with hx | hx
    · subst hx
      cases a with
      | none =>
        rw [optMin_none_left] at h
        rw [foldl_optMin_eq] at h
        cases hfold : xs.foldl optMin none with
        | none =>
          rw [hfold, optMin_none_right, Option.some.injEq] at h
          exact h.ge
        | some w =>
          rw [hfold, optMin_some_some] at h
          have : m = min w y := by simpa using h.symm
          rw [this]; exact min_le_right w y
      | some n =>
        rw [optMin_some_some] at h
        exact le_trans (foldl_optMin_acc_le _ _ _ h) (min_le_left y n)
    · exact ih _ m y h hx

/-- The result of a max fold never falls below a value in its seed. -/
theorem foldl_optMax_acc_ge (l : List (Option ℚ)) :
    ∀ n m : ℚ, l.foldl optMax (some n) = some m → n ≤ m := by
  induction l with
  | nil =>
    intro n m h
    simp only [List.foldl_nil, Option.some.injEq] at h
    exact h.le
  | cons x xs ih =>
    intro n m h
    rw [List.foldl_cons] at h
    cases x with
    | none => exact ih n m h
    | some z =>
      rw [optMax_some_some] at h
      exact le_trans (le_max_right z n) (ih _ m h)

/-- The result of a max fold is an upper bound for every non-nodata
member of the list. -/
theorem foldl_optMax_ge_mem (l : List (Option ℚ)) :
    ∀ (a : Option ℚ) (m y : ℚ), l.foldl optMax a = some m →
      some y ∈ l → y ≤ m := by
  induction l with
  | nil =>
    intro a m y _ hy
    simp at hy
  | cons x xs ih =>
    intro a m y h hy
    rw [List.foldl_cons] at h
    rcases List.mem_cons.1 hy with hx | hx
    · subst hx
      cases a with
      | none =>
        rw [optMax_none_left] at h
        rw [foldl_optMax_eq] at h
        cases hfold : xs.foldl optMax none with
        | none =>
          rw [hfold, optMax_none_right, Option.some.injEq] at h
          exact h.le
        | some w =>
          rw [hfold, optMax_some_some] at h
          have : m = max w y := by simpa using h.symm
          rw [this]; exact le_max_right w y
      | some n =>
        rw [optMax_some_some] at h
        exact le_trans (le_max_left y n) (foldl_optMax_acc_ge _ _ _ h)
    · exact ih _ m y h hx

/-- A min fold over an all-nodata list returns its seed. -/
theorem foldl_optMin_all_none (l : List (Option ℚ)) :
    ∀ a, (∀ v ∈ l, v = none) → l.foldl optMin a = a := by
  induction l with
  | nil => intro a _; rfl
  | cons x xs ih =>
    intro a hall
    have hx : x = none := hall x (List.mem_cons_self x xs)
    rw [List.foldl_cons, hx]
    exact ih a fun v hv => hall v (List.mem_cons_of_mem x hv)

/-- A max fold over an all-nodata list returns its seed. -/
theorem foldl_optMax_all_none (l : List (Option ℚ)) :
    ∀ a, (∀ v ∈ l, v = none) → l.foldl optMax a = a := by
  induction l with
  | nil => intro a _; rfl
  | cons x xs ih =>
    intro a hall
    have hx : x = none := hall x (List.mem_cons_self x xs)
    rw [List.foldl_cons, hx]
    exact ih a fun v hv => hall v (List.mem_cons_of_mem x hv)

/-! ## Lemmas: the window queue -/

/-- The queue invariant for the erosion pass: when column `c` is
evaluated, the queue holds the minima of the `2*mx+1` column slices
`c-mx .. c+mx`, oldest first. -/
theorem erodeQueue_eq (g : Grid) (mx my : ℕ) (r : ℤ) :
    ∀ c : ℕ, erodeQueue g mx my r c =
      (List.range (2 * mx + 1)).map fun (j : ℕ) => sliceMin g my r ((c : ℤ) - mx + j) := by
  intro c
  induction c with
  | zero =>
    rw [erodeQueue]
    norm_num
  | succ c ih =>
    rw [erodeQueue, ih]
    have hL : ((List.range (2 * mx + 1)).map
        (fun (j : ℕ) => sliceMin g my r ((c : ℤ) - mx + j))).tail =
        (List.range (2 * mx)).map
          (fun (j : ℕ) => sliceMin g my r ((c : ℤ) - mx + (j + 1 : ℕ))) := by
      rw [List.range_succ_eq_map, List.map_cons, List.tail_cons, List.map_map]
      apply List.map_congr_left
      intro j _
      rfl
    have hR : (List.range (2 * mx + 1)).map
        (fun (j : ℕ) => sliceMin g my r (((c + 1 : ℕ) : ℤ) - mx + j)) =
        (List.range (2 * mx)).map
          (fun (j : ℕ) => sliceMin g my r (((c + 1 : ℕ) : ℤ) - mx + j)) ++
          [sliceMin g my r (((c + 1 : ℕ) : ℤ) - mx + (2 * mx : ℕ))] := by
      rw [List.range_succ, List.map_append, List.map_singleton]
    rw [hL, List.concat_eq_append, hR]
    congr 1
    · apply List.map_congr_left
      intro j _
      congr 1
      push_cast
      ring
    · have harg : ((c : ℤ) + 1 + mx) = (((c + 1 : ℕ) : ℤ) - mx + (2 * mx : ℕ)) := by
        push_cast
        ring
      rw [harg]

/-- The queue invariant for the dilation pass. -/
theorem dilateQueue_eq (g : Grid) (mx my : ℕ) (r : ℤ) :
    ∀ c : ℕ, dilateQueue g mx my r c =
      (List.range (2 * mx + 1)).map fun (j : ℕ) => sliceMax g my r ((c : ℤ) - mx + j) := by
  intro c
  induction c with
  | zero =>
    rw [dilateQueue]
    norm_num
  | succ c ih =>
    rw [dilateQueue, ih]
    have hL : ((List.range (2 * mx + 1)).map
        (fun (j : ℕ) => sliceMax g my r ((c : ℤ) - mx + j))).tail =
        (List.range (2 * mx)).map
          (fun (j : ℕ) => sliceMax g my r ((c : ℤ) - mx + (j + 1 : ℕ))) := by
      rw [List.range_succ_eq_map, List.map_cons, List.tail_cons, List.map_map]
      apply List.map_congr_left
      intro j _
      rfl
    have hR : (List.range (2 * mx + 1)).map
        (fun (j : ℕ) => sliceMax g my r (((c + 1 : ℕ) : ℤ) - mx + j)) =
        (List.range (2 * mx)).map
          (fun (j : ℕ) => sliceMax g my r (((c + 1 : ℕ) : ℤ) - mx + j)) ++
          [sliceMax g my r (((c + 1 : ℕ) : ℤ) - mx + (2 * mx : ℕ))] := by
      rw [List.range_succ, List.map_append, List.map_singleton]
    rw [hL, List.concat_eq_append, hR]
    congr 1
    · apply List.map_congr_left
      intro j _
      congr 1
      push_cast
      ring
    · have harg : ((c : ℤ) + 1 + mx) = (((c + 1 : ℕ) : ℤ) - mx + (2 * mx : ℕ)) := by
        push_cast
        ring
      rw [harg]

/-- When the center cell is not nodata, the erosion output is the min
fold over all window values (nodata skipped). -/
theorem erodeCell_eq_windowMin (g : Grid) (mx my : ℕ) (r : ℤ) (c : ℕ)
    (h : (g r c).isSome) :
    erodeCell g mx my r c = (windowVals g mx my r c).foldl optMin none := by
  rcases hv : g r c with _ | z
  · rw [hv] at h; simp at h
  · unfold erodeCell
    rw [hv]
    rw [erodeQueue_eq, windowVals, foldl_optMin_flatten, List.map_map]
    rfl

/-- When the center cell is not nodata, the dilation output is the max
fold over all window values (nodata skipped). -/
theorem dilateCell_eq_windowMax (g : Grid) (mx my : ℕ) (r : ℤ) (c : ℕ)
    (h : (g r c).isSome) :
    dilateCell g mx my r c = (windowVals g mx my r c).foldl optMax none := by
  rcases hv : g r c with _ | z
  · rw [hv] at h; simp at h
  · unfold dilateCell
    rw [hv]
    rw [dilateQueue_eq, windowVals, foldl_optMax_flatten, List.map_map]
    rfl

/-- The center cell's value is among the window values. -/
theorem center_mem_windowVals (g : Grid) (mx my : ℕ) (r : ℤ) (c : ℕ) :
    g r c ∈ windowVals g mx my r c := by
  unfold windowVals
  rw [List.mem_flatten]
  refine ⟨colVals g my r c, ?_, ?_⟩
  · rw [List.mem_map]
    refine ⟨mx, List.mem_range.2 (by omega), ?_⟩
    congr 1
    ring
  · unfold colVals
    rw [List.mem_map]
    refine ⟨my, List.mem_range.2 (by omega), ?_⟩
    congr 1
    ring

/-- C8: in either filter pass, nodata entries are excluded from the
extremum comparison over the window (the output is the min/max fold that
skips nodata), an all-nodata window yields a nodata output, and a nodata
center cell forces a nodata output regardless of the neighbours. -/
theorem c8_filter_nodata (g : Grid) (mx my : ℕ) (r : ℤ) (c : ℕ) :
    (g r c = none →
      erodeCell g mx my r c = none ∧ dilateCell g mx my r c = none) ∧
    ((∀ v ∈ windowVals g mx my r c, v = none) →
      erodeCell g mx my r c = none ∧ dilateCell g mx my r c = none) ∧
    ((g r c).isSome →
      erodeCell g mx my r c = (windowVals g mx my r c).foldl optMin none ∧
        dilateCell g mx my r c = (windowVals g mx my r c).foldl optMax none) := by
  refine ⟨?_, ?_, ?_⟩
  · intro h
    constructor
    · unfold erodeCell; rw [h]
    · unfold dilateCell; rw [h]
  · intro hall
    have hc : g r c = none := hall (g r c) (center_mem_windowVals g mx my r c)
    constructor
    · unfold erodeCell; rw [hc]
    · unfold dilateCell; rw [hc]
  · intro h
    exact ⟨erodeCell_eq_windowMin g mx my r c h,
      dilateCell_eq_windowMax g mx my r c h⟩

/-- C8 witness: at a nodata cell of the example grid both outputs are
nodata, and at its valid cell both outputs are the window folds. -/
theorem c8_filter_nodata_witness :
    (erodeCell exGrid 1 1 5 7 = none ∧ dilateCell exGrid 1 1 5 7 = none) ∧
      (erodeCell exGrid 1 1 0 0 =
          (windowVals exGrid 1 1 0 0).foldl optMin none ∧
        dilateCell exGrid 1 1 0 0 =
          (windowVals exGrid 1 1 0 0).foldl optMax none) :=
  ⟨(c8_filter_nodata exGrid 1 1 5 7).1 (by decide),
    (c8_filter_nodata exGrid 1 1 0 0).2.2 (by decide)⟩

/-- C9: pointwise, wherever both sides are non-nodata, erosion of a grid
is at most the grid value and the grid value is at most its dilation
(same window dimensions on both sides). -/
theorem c9_erosion_le_input_le_dilation (g : Grid) (mx my : ℕ) (r : ℤ)
    (c : ℕ) :
    (∀ a b : ℚ, erodeCell g mx my r c = some a → g r c = some b → a ≤ b) ∧
    (∀ b d : ℚ, g r c = some b → dilateCell g mx my r c = some d → b ≤ d) := by
  constructor
  · intro a b ha hb
    rw [erodeCell_eq_windowMin g mx my r c (by rw [hb]; rfl)] at ha
    have hmem : some b ∈ windowVals g mx my r c := by
      rw [← hb]; exact center_mem_windowVals g mx my r c
    exact foldl_optMin_le_mem _ _ _ _ ha hmem
  · intro b d hb hd
    rw [dilateCell_eq_windowMax g mx my r c (by rw [hb]; rfl)] at hd
    have hmem : some b ∈ windowVals g mx my r c := by
      rw [← hb]; exact center_mem_windowVals g mx my r c
    exact foldl_optMax_ge_mem _ _ _ _ hd hmem

/-- C9 witness: at the valid cell of the example grid, erosion, input
and dilation all equal 5 and the two inequalities hold. -/
theorem c9_erosion_le_input_le_dilation_witness :
    erodeCell exGrid 1 1 0 0 = some 5 ∧ exGrid 0 0 = some 5 ∧
      dilateCell exGrid 1 1 0 0 = some 5 ∧
      (5 : ℚ) ≤ 5 ∧ (5 : ℚ) ≤ 5 :=
  ⟨by decide, by decide, by decide,
    (c9_erosion_le_input_le_dilation exGrid 1 1 0 0).1 5 5 (by decide)
      (by decide),
    (c9_erosion_le_input_le_dilation exGrid 1 1 0 0).2 5 5 (by decide)
      (by decide)⟩

/-! ## Lemmas: channel assembly -/

/-- A row never mentioned among the tags keeps its initial contents. -/
theorem assemble_notmem (msgs : List (ℕ × List (Option ℚ))) :
    ∀ (init : ℕ → List (Option ℚ)) (r : ℕ), r ∉ msgs.map Prod.fst →
      assemble msgs init r = init r := by
  induction msgs with
  | nil => intro init r _; rfl
  | cons m ms ih =>
    intro init r hr
    rw [List.map_cons, List.mem_cons] at hr
    push_neg at hr
    have h1 : assemble (m :: ms) init =
        assemble ms (Function.update init m.1 m.2) := rfl
    rw [h1, ih _ r hr.2, Function.update_noteq hr.1]

/-- With pairwise distinct tags, each received payload lands intact at
its tagged destination row, whatever the arrival order. -/
theorem assemble_mem (msgs : List (ℕ × List (Option ℚ))) :
    ∀ (init : ℕ → List (Option ℚ)) (r : ℕ) (d : List (Option ℚ)),
      (msgs.map Prod.fst).Nodup → (r, d) ∈ msgs →
      assemble msgs init r = d := by
  induction msgs with
  | nil =>
    intro init r d _ hmem
    simp at hmem
  | cons m ms ih =>
    intro init r d hnodup hmem
    have h1 : assemble (m :: ms) init =
        assemble ms (Function.update init m.1 m.2) := rfl
    rw [List.map_cons, List.nodup_cons] at hnodup
    rcases List.mem_cons.1 hmem with heq | hmem2
    · have hm1 : m.1 = r := by rw [← heq]
      have hm2 : m.2 = d := by rw [← heq]
      rw [h1, hm1, hm2, assemble_notmem ms _ r (by rw [← hm1]; exact hnodup.1),
        Function.update_same]
    · exact h1 ▸ ih _ r d hnodup.2 hmem2

/-- Any permutation of one tagged message per row of `0..R` assembles to
the same final store: row `r < R` holds `f r`, other rows are untouched. -/
theorem assemble_of_perm (f init : ℕ → List (Option ℚ)) (R : ℕ)
    (msgs : List (ℕ × List (Option ℚ)))
    (h : msgs.Perm ((List.range R).map fun r => (r, f r))) :
    ∀ r, assemble msgs init r = if r < R then f r else init r := by
  have hcanon : ((List.range R).map fun r => (r, f r)).map Prod.fst =
      List.range R := by
    rw [List.map_map]
    have hid : (Prod.fst ∘ fun r : ℕ => (r, f r)) = id := rfl
    rw [hid, List.map_id]
  have hkeys : (msgs.map Prod.fst).Perm (List.range R) := by
    rw [← hcanon]
    exact h.map Prod.fst
  have hnodup : (msgs.map Prod.fst).Nodup :=
    hkeys.nodup_iff.2 (List.nodup_range R)
  intro r
  by_cases hr : r < R
  · have hm : (r, f r) ∈ msgs :=
      h.mem_iff.2 (List.mem_map.2 ⟨r, List.mem_range.2 hr, rfl⟩)
    rw [if_pos hr]
    exact assemble_mem msgs init r (f r) hnodup hm
  · have hnot : r ∉ msgs.map Prod.fst := fun hc =>
      hr (List.mem_range.1 (hkeys.mem_iff.1 hc))
    rw [if_neg hr]
    exact assemble_notmem msgs init r hnot

/-- The erosion channel's sent messages are exactly one tagged payload
per owned row, in spawn order. -/
theorem sentErodeMsgs_eq (g : Grid) (mx my R C P : ℕ) :
    sentErodeMsgs g mx my R C P =
      (rowsOf (blockRanges R P)).map fun r => (r, erodeRow g mx my C r) := by
  unfold sentErodeMsgs rowsOf
  rw [List.map_flatten, List.map_map]
  rfl

/-- The dilation channel's sent messages are exactly one tagged payload
per owned row, in spawn order. -/
theorem sentDilateMsgs_eq (g : Grid) (mx my R C P : ℕ) :
    sentDilateMsgs g mx my R C P =
      (rowsOf (blockRanges R P)).map fun r => (r, dilateRow g mx my C r) := by
  unfold sentDilateMsgs rowsOf
  rw [List.map_flatten, List.map_map]
  rfl

/-- C10: for a fixed input grid and filter dimensions, the opening
tool's two-pass output is a deterministic function of the input — two
runs with different worker counts and different tagged-row arrival
orders on the two result channels produce identical output stores,
because each row payload is computed only from immutable inputs and is
placed by its row tag. -/
theorem c10_opening_deterministic (g : Grid) (mx my R C P1 P2 : ℕ)
    (eros1 dila1 eros2 dila2 : List (ℕ × List (Option ℚ)))
    (hP1 : 1 ≤ P1) (hP1R : P1 ≤ R) (hP2 : 1 ≤ P2) (hP2R : P2 ≤ R)
    (h1 : eros1.Perm (sentErodeMsgs g mx my R C P1))
    (h2 : dila1.Perm (sentDilateMsgs
      (gridOfRows R C (assemble eros1 (initRows C))) mx my R C P1))
    (h3 : eros2.Perm (sentErodeMsgs g mx my R C P2))
    (h4 : dila2.Perm (sentDilateMsgs
      (gridOfRows R C (assemble eros2 (initRows C))) mx my R C P2)) :
    assemble dila1 (initRows C) = assemble dila2 (initRows C) := by
  rw [sentErodeMsgs_eq, blockRanges_rows R P1 hP1 hP1R] at h1
  rw [sentErodeMsgs_eq, blockRanges_rows R P2 hP2 hP2R] at h3
  have e1 := assemble_of_perm (erodeRow g mx my C) (initRows C) R eros1 h1
  have e2 := assemble_of_perm (erodeRow g mx my C) (initRows C) R eros2 h3
  have hA : assemble eros1 (initRows C) = assemble eros2 (initRows C) :=
    funext fun r => (e1 r).trans (e2 r).symm
  rw [sentDilateMsgs_eq, blockRanges_rows R P1 hP1 hP1R] at h2
  rw [sentDilateMsgs_eq, blockRanges_rows R P2 hP2 hP2R] at h4
  have d1 := assemble_of_perm
    (dilateRow (gridOfRows R C (assemble eros1 (initRows C))) mx my C)
    (initRows C) R dila1 h2
  have d2 := assemble_of_perm
    (dilateRow (gridOfRows R C (assemble eros2 (initRows C))) mx my C)
    (initRows C) R dila2 h4
  funext r
  rw [d1 r, d2 r, hA]

/-- C10 witness: running the two-pass opening of the example grid with
one worker and with two workers (canonical arrival orders) produces the
same output store. -/
theorem c10_opening_deterministic_witness :
    assemble (sentDilateMsgs (gridOfRows 2 1
        (assemble (sentErodeMsgs exGrid 1 1 2 1 1) (initRows 1))) 1 1 2 1 1)
      (initRows 1) =
    assemble (sentDilateMsgs (gridOfRows 2 1
        (assemble (sentErodeMsgs exGrid 1 1 2 1 2) (initRows 1))) 1 1 2 1 2)
      (initRows 1) :=
  c10_opening_deterministic exGrid 1 1 2 1 1 2
    (sentErodeMsgs exGrid 1 1 2 1 1)
    (sentDilateMsgs (gridOfRows 2 1
      (assemble (sentErodeMsgs exGrid 1 1 2 1 1) (initRows 1))) 1 1 2 1 1)
    (sentErodeMsgs exGrid 1 1 2 1 2)
    (sentDilateMsgs (gridOfRows 2 1
      (assemble (sentErodeMsgs exGrid 1 1 2 1 2) (initRows 1))) 1 1 2 1 2)
    (by norm_num) (by norm_num) (by norm_num) (by norm_num)
    (List.Perm.refl _) (List.Perm.refl _) (List.Perm.refl _)
    (List.Perm.refl _)

/-! ## Lemmas: the nearest-centroid scan -/

/-- The scan over `a in 0..k` returns the least index attaining the
minimum distance: its stored `min_dist` is the distance of the stored
index, the index is in range, no index does strictly better, and every
smaller index does strictly worse. -/
theorem assignScan_spec (d : ℕ → ℚ) (k : ℕ) (hk : 1 ≤ k) :
    ((List.range k).foldl (assignStep d) (0, none)).2 =
        some (d ((List.range k).foldl (assignStep d) (0, none)).1) ∧
      ((List.range k).foldl (assignStep d) (0, none)).1 < k ∧
      (∀ b, b < k →
        d ((List.range k).foldl (assignStep d) (0, none)).1 ≤ d b) ∧
      (∀ b, b < ((List.range k).foldl (assignStep d) (0, none)).1 →
        d ((List.range k).foldl (assignStep d) (0, none)).1 < d b) := by
  induction k, hk using Nat.le_induction with
  | base =>
    have h : (List.range 1).foldl (assignStep d) (0, none) = (0, some (d 0)) := rfl
    rw [h]
    refine ⟨rfl, Nat.zero_lt_one, ?_, ?_⟩
    · intro b hb
      have hb0 : b = 0 := by omega
      rw [hb0]
    · intro b hb
      exact absurd hb (by omega)
  | succ k hk1 ih =>
    rw [List.range_succ, List.foldl_append, List.foldl_cons, List.foldl_nil]
    obtain ⟨ih1, ih2, ih3, ih4⟩ := ih
    have hstep : assignStep d ((List.range k).foldl (assignStep d) (0, none)) k =
        if d k < d ((List.range k).foldl (assignStep d) (0, none)).1 then
          (k, some (d k))
        else (List.range k).foldl (assignStep d) (0, none) := by
      simp only [assignStep, ih1]
    rw [hstep]
    by_cases hlt : d k < d ((List.range k).foldl (assignStep d) (0, none)).1
    · rw [if_pos hlt]
      refine ⟨rfl, Nat.lt_succ_self k, ?_, ?_⟩
      · intro b hb
        rcases Nat.lt_succ_iff_lt_or_eq.1 hb with hbk | hbk
        · exact le_of_lt (lt_of_lt_of_le hlt (ih3 b hbk))
        · rw [hbk]
      · intro b hb
        exact lt_of_lt_of_le hlt (ih3 b hb)
    · rw [if_neg hlt]
      refine ⟨ih1, by omega, ?_, ih4⟩
      intro b hb
      rcases Nat.lt_succ_iff_lt_or_eq.1 hb with hbk | hbk
      · exact ih3 b hbk
      · rw [hbk]
        exact not_lt.1 hlt

/-- The assigned class index is always within `0..k` when `k ≥ 1`. -/
theorem assignClass_lt (k : ℕ) (hk : 1 ≤ k) (d : ℕ → ℚ) :
    assignClass k d < k :=
  (assignScan_spec d k hk).2.1

/-- C5: for every cell, the assigned class is the index of the centroid
at minimum squared Euclidean distance, ties broken by the lowest index
encountered first — a candidate replaces the best only on strict
improvement. -/
theorem c5_assignment_argmin (nb k : ℕ) (band : ℕ → ℕ → ℕ → ℚ)
    (centres : ℕ → ℕ → ℚ) (r c : ℕ) (hk : 1 ≤ k) :
    cellClass nb k band centres r c < k ∧
      (∀ b, b < k →
        distSq nb (cellValue band r c)
            (centres (cellClass nb k band centres r c)) ≤
          distSq nb (cellValue band r c) (centres b)) ∧
      (∀ b, b < cellClass nb k band centres r c →
        distSq nb (cellValue band r c)
            (centres (cellClass nb k band centres r c)) <
          distSq nb (cellValue band r c) (centres b)) := by
  obtain ⟨h1, h2, h3, h4⟩ :=
    assignScan_spec (fun a => distSq nb (cellValue band r c) (centres a)) k hk
  exact ⟨h2, h3, h4⟩

/-- C5 witness: the argmin property at a concrete cell of the example
raster with two concrete centroids. -/
theorem c5_assignment_argmin_witness :
    cellClass 1 2 exBand exCentres 0 1 < 2 ∧
      (∀ b, b < 2 →
        distSq 1 (cellValue exBand 0 1)
            (exCentres (cellClass 1 2 exBand exCentres 0 1)) ≤
          distSq 1 (cellValue exBand 0 1) (exCentres b)) ∧
      (∀ b, b < cellClass 1 2 exBand exCentres 0 1 →
        distSq 1 (cellValue exBand 0 1)
            (exCentres (cellClass 1 2 exBand exCentres 0 1)) <
          distSq 1 (cellValue exBand 0 1) (exCentres b)) :=
  c5_assignment_argmin 1 2 exBand exCentres 0 1 (by norm_num)

/-- C4: for every iteration (i.e. every centroid configuration), the
per-class member counts sum to the valid-cell count, and the counter `n`
holds exactly that number after the first iteration and never changes
afterwards. -/
theorem c4_class_counts (R C nb k : ℕ) (band : ℕ → ℕ → ℕ → ℚ)
    (nodata : ℕ → ℚ) (hk : 1 ≤ k) :
    (∀ centres : ℕ → ℕ → ℚ,
      ∑ a in Finset.range k, classCount R C nb k band nodata centres a =
        validCount R C nb band nodata) ∧
    ∀ t, 1 ≤ t →
      ((nStep (validCount R C nb band nodata))^[t] (0, false)).1 =
        validCount R C nb band nodata := by
  constructor
  · intro centres
    unfold classCount validCount
    exact (Finset.card_eq_sum_card_fiberwise fun p _ =>
      Finset.mem_range.2 (assignClass_lt k hk _)).symm
  · have hiter : ∀ t, (nStep (validCount R C nb band nodata))^[t + 1] (0, false) =
        (validCount R C nb band nodata, true) := by
      intro t
      induction t with
      | zero => simp [nStep]
      | succ t ih =>
        rw [Function.iterate_succ_apply', ih]
        simp [nStep]
    intro t ht
    obtain ⟨u, rfl⟩ : ∃ u, t = u + 1 := ⟨t - 1, by omega⟩
    rw [hiter u]

/-- C4 witness: on the 2 by 2 example raster (all four cells valid) with
two classes, the counts sum to 4 and `n` stays 4 after iteration one. -/
theorem c4_class_counts_witness :
    (∑ a in Finset.range 2, classCount 2 2 1 2 exBand exNodata exCentres a =
      validCount 2 2 1 exBand exNodata) ∧
    ((nStep (validCount 2 2 1 exBand exNodata))^[3] (0, false)).1 =
      validCount 2 2 1 exBand exNodata :=
  ⟨(c4_class_counts 2 2 1 2 exBand exNodata (by norm_num)).1 exCentres,
    (c4_class_counts 2 2 1 2 exBand exNodata (by norm_num)).2 3 (by norm_num)⟩

/-- C6: under diagonal initialization, centroid `a`'s value in band `i`
is `min[i] + ((max[i] - min[i]) / k) * a`, for every class and band; the
initialization is a pure function of the configuration, hence
deterministic. -/
theorem c6_diagonal_init (k : ℕ) (minimum maximum : ℕ → ℚ) (a i : ℕ) :
    diagInit k minimum maximum a i =
      minimum i + ((maximum i - minimum i) / (k : ℚ)) * (a : ℚ) := rfl

/-! ## Lemmas: the clustering loop -/

/-- The loop executes at most `max_iterations` iterations. -/
theorem kmeansLoop_le {σ : Type} (step : σ → σ × ℚ) (th : ℚ) :
    ∀ (m : ℕ) (s : σ), (kmeansLoop step th m s).2 ≤ m := by
  intro m
  induction m with
  | zero => intro s; exact le_refl 0
  | succ m ih =>
    intro s
    rw [kmeansLoop]
    by_cases h : (step s).2 < th
    · rw [if_pos h]
      exact Nat.succ_le_succ (Nat.zero_le m)
    · rw [if_neg h]
      exact Nat.succ_le_succ (ih (step s).1)

/-- Shifting the trajectory by one iteration. -/
theorem kmeansTraj_shift {σ : Type} (step : σ → σ × ℚ) (s : σ) :
    ∀ u, kmeansTraj step s (u + 1) = kmeansTraj step (step s).1 u := by
  intro u
  induction u with
  | zero => rfl
  | succ u ih =>
    have h : kmeansTraj step s (u + 1 + 1) =
        (step (kmeansTraj step s (u + 1))).1 := rfl
    rw [h, ih]
    rfl

/-- Shifting the per-iteration `percent_changed` stream by one. -/
theorem percentAt_shift {σ : Type} (step : σ → σ × ℚ) (s : σ) (u : ℕ) :
    percentAt step s (u + 1) = percentAt step (step s).1 u := by
  unfold percentAt
  rw [kmeansTraj_shift]

/-- If iteration `t` is the first whose `percent_changed` is strictly
below the threshold and the budget allows reaching it, the loop stops
right after iteration `t`. -/
theorem kmeansLoop_stops {σ : Type} (step : σ → σ × ℚ) (th : ℚ) :
    ∀ (m : ℕ) (s : σ) (t : ℕ), t < m → percentAt step s t < th →
      (∀ u, u < t → ¬ percentAt step s u < th) →
      (kmeansLoop step th m s).2 = t + 1 := by
  intro m
  induction m with
  | zero =>
    intro s t ht _ _
    exact absurd ht (Nat.not_lt_zero t)
  | succ m ih =>
    intro s t ht hp hprev
    rw [kmeansLoop]
    by_cases h0 : (step s).2 < th
    · rw [if_pos h0]
      have ht0 : t = 0 := by
        by_contra hne
        exact (hprev 0 (by omega)) h0
      rw [ht0]
    · rw [if_neg h0]
      obtain ⟨u, rfl⟩ : ∃ u, t = u + 1 := by
        cases t with
        | zero => exact absurd hp h0
        | succ u => exact ⟨u, rfl⟩
      have hrec := ih (step s).1 u (by omega)
        (by rw [← percentAt_shift]; exact hp)
        (fun v hv => by rw [← percentAt_shift]; exact hprev (v + 1) (by omega))
      simp only [hrec]

/-- If `percent_changed` never drops below the threshold, the loop runs
the whole iteration budget. -/
theorem kmeansLoop_exhausts {σ : Type} (step : σ → σ × ℚ) (th : ℚ) :
    ∀ (m : ℕ) (s : σ), (∀ t, t < m → ¬ percentAt step s t < th) →
      (kmeansLoop step th m s).2 = m := by
  intro m
  induction m with
  | zero => intro s _; rfl
  | succ m ih =>
    intro s hall
    rw [kmeansLoop]
    have h0 : ¬ (step s).2 < th := hall 0 (Nat.succ_pos m)
    rw [if_neg h0]
    have hrec := ih (step s).1 fun t ht => by
      rw [← percentAt_shift]
      exact hall (t + 1) (by omega)
    simp only [hrec]

/-- C7: the clustering loop terminates for every input — it executes at
most `max_iterations` iterations; it stops right after the first
iteration whose `percent_changed` is strictly below the threshold; and
if no iteration's `percent_changed` drops below the threshold it halts
exactly at the iteration budget. -/
theorem c7_loop_termination {σ : Type} (step : σ → σ × ℚ) (th : ℚ)
    (m : ℕ) (s : σ) :
    (kmeansLoop step th m s).2 ≤ m ∧
      (∀ t, t < m → percentAt step s t < th →
        (∀ u, u < t → ¬ percentAt step s u < th) →
        (kmeansLoop step th m s).2 = t + 1) ∧
      ((∀ t, t < m → ¬ percentAt step s t < th) →
        (kmeansLoop step th m s).2 = m) :=
  ⟨kmeansLoop_le step th m s,
    fun t ht hp hprev => kmeansLoop_stops step th m s t ht hp hprev,
    kmeansLoop_exhausts step th m s⟩

/-- C7 witness: with the example iteration body (percent stream 5, 4, 3,
2, 1, ...), threshold 2 and budget 10, the loop runs exactly 5
iterations, within budget. -/
theorem c7_loop_termination_witness :
    (kmeansLoop exStep 2 10 0).2 ≤ 10 ∧ (kmeansLoop exStep 2 10 0).2 = 5 :=
  ⟨(c7_loop_termination exStep 2 10 0).1,
    (c7_loop_termination exStep 2 10 0).2.1 4 (by norm_num)
      (by norm_num [percentAt, kmeansTraj, exStep])
      (by intro u hu; interval_cases u <;>
        norm_num [percentAt, kmeansTraj, exStep])⟩

/-- C1 counterexample: class 1 is degenerate (3 < 10 members) and the
donor search fails (every draw hits a class with at most
`2 * min_class_size` members), yet the update does not leave the
centroid unchanged: `large_class` defaults to 0 and the centroid is
re-sampled within class 0's observed range, moving it from 100 to 0. -/
theorem c1_counterexample :
    exClassN 1 < 10 ∧
      donorSearch 2 10 exClassN exIdxRng = none ∧
      updateCentre 2 10 exClassN exSums exMins exMaxs exIdxRng exValRng 1 0 =
        0 ∧
      exOldCentres 1 0 = 100 ∧ (0 : ℚ) ≠ 100 :=
  ⟨by decide, rfl, rfl, rfl, by norm_num⟩

/-- C1 (amended): when a class is degenerate and no donor is found
within the attempt budget, the centroid is NOT left unchanged — the
donor index `large_class` keeps its default value 0, and every band `i`
of the degenerate centroid is re-sampled within class 0's observed
min-max range. -/
theorem c1_degenerate_reinit (k minCS : ℕ) (classN : ℕ → ℕ)
    (sums mins maxs : ℕ → ℕ → ℚ) (idxRng : ℕ → ℕ)
    (valRng : ℕ → ℚ → ℚ → ℚ) (a : ℕ) (hdeg : classN a < minCS)
    (hfail : donorSearch k minCS classN idxRng = none) :
    ∀ i, updateCentre k minCS classN sums mins maxs idxRng valRng a i =
      valRng i (mins 0 i) (maxs 0 i) := by
  intro i
  unfold updateCentre
  rw [if_neg (not_le.2 hdeg), hfail, Option.getD_none]

/-- C1 witness: the amended statement at the concrete degenerate
configuration of the counterexample. -/
theorem c1_degenerate_reinit_witness :
    updateCentre 2 10 exClassN exSums exMins exMaxs exIdxRng exValRng 1 0 =
      exValRng 0 (exMins 0 0) (exMaxs 0 0) :=
  c1_degenerate_reinit 2 10 exClassN exSums exMins exMaxs exIdxRng exValRng 1
    (by decide) rfl 0

/-- C3 counterexample: with `num_classes = 1` and every other option
valid, the run does fail with the configuration error, but the first
input raster is read before the check fires (the check needs the grid
extent), so the error is not reported before any grid read. -/
theorem c3_counterexample :
    errBeforeAnyRead (kmeansSetupTrace exCfg) = false ∧
      kmeansSetupTrace exCfg = [KEvent.readFile 0, KEvent.errClasses] := by
  refine ⟨?_, ?_⟩ <;> decide

/-- C3 (amended): whenever the earlier checks pass (at least two files,
`max_iterations` and threshold in range) and `num_classes` is outside
`2 ≤ k ≤ rows * columns` of the first file, the run fails with the
`num_classes` configuration error immediately after reading the first
input raster — one grid read happens before the error is reported. -/
theorem c3_classes_check_after_first_read (cfg : KConfig)
    (h2 : 2 ≤ cfg.numFiles)
    (hmi1 : 2 ≤ cfg.maxIterations) (hmi2 : cfg.maxIterations ≤ 250)
    (hth1 : 0 ≤ cfg.threshold) (hth2 : cfg.threshold ≤ 25)
    (hk : cfg.numClasses < 2 ∨
      (cfg.dims 0).1 * (cfg.dims 0).2 < cfg.numClasses) :
    kmeansSetupTrace cfg = [KEvent.readFile 0, KEvent.errClasses] := by
  unfold kmeansSetupTrace
  rw [if_neg (by omega), if_neg (by omega),
    if_neg (by push_neg; exact ⟨hth1, hth2⟩)]
  obtain ⟨f, hf⟩ : ∃ f, cfg.numFiles = f + 1 := ⟨cfg.numFiles - 1, by omega⟩
  rw [hf, setupLoop]
  dsimp only
  rw [if_pos hk]

/-- C3 witness: the amended statement at the concrete configuration
with `num_classes = 1`. -/
theorem c3_classes_check_after_first_read_witness :
    kmeansSetupTrace exCfg = [KEvent.readFile 0, KEvent.errClasses] :=
  c3_classes_check_after_first_read exCfg (by norm_num [exCfg])
    (by norm_num [exCfg]) (by norm_num [exCfg]) (by norm_num [exCfg])
    (by norm_num [exCfg]) (Or.inl (by norm_num [exCfg]))
